import Mathlib

/-!
# Verification of the node-mpc protocol engine

Shallow embedding of the MPD client protocol engine (`src/index.js`):
connection lifecycle, line extraction from the inbound stream, response
parsing, FIFO correlation of pending requests, and the idle/noidle state
machine.  Wire text is modelled as `List Char`; the socket and the event
emitter are modelled by explicit write traces and event lists.
-/

/-- Wire text: a JavaScript string, modelled as its list of characters. -/
abbrev Str := List Char

/-- The characters of a Lean string literal, used to write wire constants. -/
def chars (s : String) : Str := s.data

/-- `line.indexOf(': ')` (src/index.js:236): index of the first occurrence of
the separator `": "`, `none` when absent (`-1` in the source). -/
def sepIdx : Str → Option Nat
  | [] => none
  | c :: rest =>
    if c = ':' ∧ rest.head? = some ' ' then some 0
    else (sepIdx rest).map (· + 1)

/-- `status.replace('\n', '')` (src/index.js:259): JavaScript `replace` with a
string pattern removes only the first occurrence. -/
def removeFirstNl : Str → Str
  | [] => []
  | c :: rest => if c = '\n' then rest else c :: removeFirstNl rest

/-- `contents.split('\n')` (src/index.js:233): JavaScript split, which yields
a trailing empty piece when the text ends in the separator. -/
def splitNl : Str → List Str
  | [] => [[]]
  | c :: rest =>
    if c = '\n' then [] :: splitNl rest
    else
      match splitNl rest with
      | [] => [[c]]
      | l :: ls => (c :: l) :: ls

/-- The property names a plain object literal `{}` inherits from
`Object.prototype`: for these keys `data[key]` is a non-nullish inherited
member even when the object has no own entry, so the freshness test
`data[key] == null` of src/index.js:245 fails on their first occurrence. -/
def protoProps : List Str :=
  [chars "constructor", chars "hasOwnProperty", chars "isPrototypeOf",
   chars "propertyIsEnumerable", chars "toLocaleString", chars "toString",
   chars "valueOf", chars "__defineGetter__", chars "__defineSetter__",
   chars "__lookupGetter__", chars "__lookupSetter__", chars "__proto__"]

/-- An element of a promoted array value: a parsed string, or the member the
object inherits under that name (e.g. `Object.prototype.toString`, stored as
the first element when a prototype-member key is "promoted" at its first
occurrence, src/index.js:252), captured symbolically by its name. -/
inductive FieldElem where
  | str (s : Str)
  | protoMember (name : Str)
deriving DecidableEq

/-- A value in the parsed field map: a single string, or — once the lookup
of the key was non-nullish — an ordered array (src/index.js:245-253). -/
inductive FieldVal where
  | str (s : Str)
  | arr (l : List FieldElem)
deriving DecidableEq

/-- The `data` object built by `_parseResponse`: string keys in insertion
order (JavaScript object semantics for non-numeric keys). -/
abbrev FieldMap := List (Str × FieldVal)

/-- Lookup of the *own* entry for a key (first, and by construction only,
binding). -/
def lookupField : FieldMap → Str → Option FieldVal
  | [], _ => none
  | (k, w) :: rest, key => if k = key then some w else lookupField rest key

/-- The result of the JavaScript property read `data[key]`: an own entry,
or a member inherited from `Object.prototype`, or nullish (`undefined`). -/
inductive ReadVal where
  | val (v : FieldVal)
  | inherited (name : Str)
deriving DecidableEq

/-- The JavaScript property read `data[key]` (src/index.js:245): an own
entry shadows the prototype; otherwise the prototype chain of the plain
object supplies the `Object.prototype` member of that name; otherwise the
read is nullish. -/
def jsGet (m : FieldMap) (k : Str) : Option ReadVal :=
  match lookupField m k with
  | some v => some (.val v)
  | none => if k ∈ protoProps then some (.inherited k) else none

/-- One assignment step of the loop body (src/index.js:245-253), following
the JavaScript read `data[key]`: a nullish read inserts a fresh scalar entry
at the end; an own array entry gets the value pushed; any other non-nullish
read — an own scalar, or (prototype-chain lookup) an inherited
`Object.prototype` member on its first occurrence — is promoted to the
two-element array `[data[key], val]`, an own entry keeping its position and
a shadowing entry being inserted at the end.  (Caveat, outside every
theorem's domain here: for the key `__proto__` the real assignment runs the
inherited accessor's setter, mutating the object's prototype instead of
creating the own entry this model records; the value read back coincides,
but a body mixing a `__proto__` line with later `Array.prototype`-member
keys would diverge from this model.) -/
def addField : FieldMap → Str → Str → FieldMap
  | [], k, v =>
    if k ∈ protoProps then [(k, .arr [.protoMember k, .str v])]
    else [(k, .str v)]
  | (k', w) :: rest, k, v =>
    if k' = k then
      (k', match w with
           | .str s => .arr [.str s, .str v]
           | .arr l => .arr (l ++ [.str v])) :: rest
    else (k', w) :: addField rest k v

/-- The `for (const line of contents.split('\n'))` loop of `_parseResponse`
(src/index.js:233-254): empty lines are skipped; a non-empty line without the
separator discards everything (`data = {}`) and breaks out of the loop. -/
def parseLines : FieldMap → List Str → FieldMap
  | m, [] => m
  | m, l :: ls =>
    if l = [] then parseLines m ls
    else
      match sepIdx l with
      | none => []
      | some i => parseLines (addField m (l.take i) (l.drop (i + 2))) ls

/-- The parsed response record returned by `_parseResponse`
(src/index.js:257-261). -/
structure Resp where
  data : FieldMap
  status : Str
  full : Str
deriving DecidableEq

/-- `_parseResponse(contents, status)` (src/index.js:229-262): parses the
accumulated body into a field map (empty when `contents` is falsy), strips
the newline from the status line, and keeps the verbatim concatenation. -/
def _parseResponse (contents status : Str) : Resp :=
  { data := if contents = [] then [] else parseLines [] (splitNl contents)
    status := removeFirstNl status
    full := contents ++ status }

/-- Line extraction of the inbound data handler (src/index.js:72-125): the
`while` loop slices off every complete `\n`-terminated line (each including
its newline) and leaves the trailing partial line as the residue that is
appended back onto the carry-over buffer. -/
def extractLines : Str → List Str × Str
  | [] => ([], [])
  | c :: rest =>
    let p := extractLines rest
    if c = '\n' then (([c] : Str) :: p.1, p.2)
    else
      match p.1 with
      | [] => ([], c :: p.2)
      | l :: ls => ((c :: l) :: ls, p.2)

/-- One `data` event of the Frame Reader: the source prepends the carry-over
buffer to the chunk (`data = buffer + data`, src/index.js:69) and extracts
the complete lines, the residue becoming the new buffer. -/
def feed (buffer chunk : Str) : List Str × Str :=
  extractLines (buffer ++ chunk)

/-- Feeding a sequence of chunks, threading the carry-over buffer and
concatenating the lines produced. -/
def feedAll (buffer : Str) : List Str → List Str × Str
  | [] => ([], buffer)
  | c :: cs =>
    let p := feed buffer c
    let q := feedAll p.2 cs
    (p.1 ++ q.1, q.2)

/-- An entry of `this[$queue]` (src/index.js:191-193): either the `[noop,
noop]` pair that discards the response of an injected `noidle`, or a caller's
`[resolve, reject]` pair, identified by the id of its promise. -/
inductive QEntry where
  | noop
  | pair (id : Nat)
deriving DecidableEq

/-- The mutable state of one `MPClient` instance: `isConnected()`
(src/index.js:40-42), `this[$isIdle]`, `this[$queue]`, and the `buffer`
variable local to the data handler installed by `connect`
(src/index.js:66). -/
structure MPClient where
  connected : Bool
  isIdle : Bool
  queue : List QEntry
  buffer : Str
deriving DecidableEq

/-- `new MPClient(netOpts)` (src/index.js:26-33): no socket, not idle, empty
queue. -/
def MPClient.init : MPClient :=
  { connected := false, isIdle := false, queue := [], buffer := [] }

/-- `disconnect()` (src/index.js:133-138): ends the socket when connected,
otherwise does nothing.  The queue and idle flag are not touched. -/
def MPClient.disconnect (s : MPClient) : MPClient :=
  if s.connected then { s with connected := false } else s

/-- `connect()` (src/index.js:51-128): disconnects first when already
connected, clears the idle flag, opens a fresh socket and installs a data
handler with a fresh empty `buffer`.  The queue is not touched. -/
def MPClient.connect (s : MPClient) : MPClient :=
  let s' := if s.connected then s.disconnect else s
  { s' with connected := true, isIdle := false, buffer := [] }

/-- The result of `command()`: the pre-rejected `noConnectionAvailable`
promise (src/index.js:14-16), or a promise that stays pending until the
matched response frame settles it. -/
inductive CmdRes where
  | notConnected
  | pending (id : Nat)
deriving DecidableEq

/-- Observable outcome of one `command()` call: the state afterwards, the
socket writes performed (in order), the queue pushes performed (in order),
and the returned promise. -/
structure CmdOut where
  state : MPClient
  writes : List Str
  pushes : List QEntry
  res : CmdRes
deriving DecidableEq

/-- `command.endsWith('\n')` (src/index.js:177). -/
def endsWithNl (s : Str) : Bool := s.getLast? = some '\n'

/-- The newline normalisation of `command()` (src/index.js:177-179): append a
trailing newline when absent. -/
def withNl (s : Str) : Str := if endsWithNl s then s else s ++ ['\n']

/-- `command(command)` (src/index.js:172-196).  `id` identifies the promise
created by the call.  When idle and the text does not start with `noidle\n`,
the source prepends `'noidle\n'` to the text and performs a *single*
`socket.write` of the concatenation, then pushes the `[noop, noop]` pair
followed by the real `[resolve, reject]` pair. -/
def MPClient.command (s : MPClient) (text : Str) (id : Nat) : CmdOut :=
  if ¬ s.connected then ⟨s, [], [], .notConnected⟩
  else
    let text' := withNl text
    if s.isIdle ∧ ¬ (chars "noidle\n").isPrefixOf text' then
      ⟨{ s with queue := s.queue ++ [.noop, .pair id] },
       [chars "noidle\n" ++ text'], [.noop, .pair id], .pending id⟩
    else
      ⟨{ s with queue := s.queue ++ [.pair id] }, [text'], [.pair id], .pending id⟩

/-- Result of `idle()`: the pre-rejected promise, or a promise resolved
(immediately, or on write completion) by the call itself. -/
inductive IdleRes where
  | notConnected
  | resolved
deriving DecidableEq

/-- Observable outcome of one `idle()` call. -/
structure IdleOut where
  state : MPClient
  writes : List Str
  pushes : List QEntry
  res : IdleRes
deriving DecidableEq

/-- `idle()` (src/index.js:145-162): no-op resolution when already idle;
otherwise writes `'idle\n'`, sets the idle flag and resolves in the write
callback.  No queue push in either case. -/
def MPClient.idle (s : MPClient) : IdleOut :=
  if ¬ s.connected then ⟨s, [], [], .notConnected⟩
  else if s.isIdle then ⟨s, [], [], .resolved⟩
  else ⟨{ s with isIdle := true }, [chars "idle\n"], [], .resolved⟩

/-- `Array.from(commands).join('\n')` (src/index.js:211). -/
def joinNl : List Str → Str
  | [] => []
  | [c] => c
  | c :: cs => c ++ '\n' :: joinNl cs

/-- The text built by `commandList` (src/index.js:210-212): begin marker,
the commands joined with `'\n'` plus one trailing `'\n'`, end marker. -/
def commandListText (commands : List Str) (listOk : Bool) : Str :=
  (if listOk then chars "command_list_ok_begin\n" else chars "command_list_begin\n")
    ++ (joinNl commands ++ ['\n'])
    ++ chars "command_list_end\n"

/-- `commandList(commands, listOk)` (src/index.js:207-215): `listOk` defaults
to `true` when `null`/omitted; the wrapped text is issued as a single
`command`. -/
def MPClient.commandList (s : MPClient) (commands : List Str)
    (listOk : Option Bool) (id : Nat) : CmdOut :=
  s.command (commandListText commands (listOk.getD true)) id

/-- Events emitted by the inbound data handler (src/index.js:84, 98, 101,
105, 113, 115).  Settling a popped continuation is recorded as an event so
that the correlation of frames to continuations is observable. -/
inductive Ev where
  | ready (banner : Str)
  | settledOk (e : QEntry) (r : Resp)
  | settledErr (e : QEntry) (r : Resp)
  | dataEv (r : Resp)
  | changed (subsystems : List FieldElem)
  | changedOne (subsystem : FieldElem)
deriving DecidableEq

/-- The `changed` notifications (src/index.js:108-117): when the JavaScript
read `response.data.changed` is non-nullish, emit `'changed'` with the
(array-wrapped) value and one `'changed:<event>'` per subsystem.  (`changed`
is not an `Object.prototype` member, so the inherited branch never fires for
data built by the parser.) -/
def changedEvents (r : Resp) : List Ev :=
  match jsGet r.data (chars "changed") with
  | none => []
  | some (.val (.str s)) => [.changed [.str s], .changedOne (.str s)]
  | some (.val (.arr l)) => .changed l :: l.map .changedOne
  | some (.inherited n) => [.changed [.protoMember n], .changedOne (.protoMember n)]

/-- Outcome of classifying one complete line (src/index.js:79-122): the new
body buffer, the new pending queue, and the events emitted. -/
structure LineOut where
  buffer : Str
  queue : List QEntry
  events : List Ev
deriving DecidableEq

/-- Classification and dispatch of one complete line (src/index.js:79-122):
an `OK MPD`-prefixed line is the ready banner (buffer flushed into it); any
other `OK`/`ACK`-prefixed line terminates a frame, which settles the popped
head of the queue (resolve on `OK`, reject on `ACK`) or, when the queue is
empty, is emitted as a `data` event; every other line is appended to the
body buffer. -/
def processLine (buffer : Str) (queue : List QEntry) (line : Str) : LineOut :=
  let isOK := (chars "OK").isPrefixOf line
  let isACK := (chars "ACK").isPrefixOf line
  if isOK ∨ isACK then
    if isOK ∧ (chars "OK MPD").isPrefixOf line then
      ⟨[], queue, [.ready (buffer ++ line)]⟩
    else
      let response := _parseResponse buffer line
      match queue with
      | [] => ⟨[], queue, .dataEv response :: changedEvents response⟩
      | e :: rest =>
        ⟨[], rest,
         (if isOK then Ev.settledOk e response else Ev.settledErr e response)
           :: changedEvents response⟩
  else ⟨buffer ++ line, queue, []⟩

/-- Outcome of one `data` event of the socket. -/
structure ChunkOut where
  state : MPClient
  events : List Ev
deriving DecidableEq

/-- The `data` handler (src/index.js:67-126): clears the idle flag, prepends
the carry-over buffer to the chunk, classifies every complete line in order
(the body buffer restarting empty), and appends the trailing partial line to
the resulting buffer. -/
def MPClient.processData (s : MPClient) (chunk : Str) : ChunkOut :=
  let p := extractLines (s.buffer ++ chunk)
  let f := p.1.foldl
    (fun (acc : Str × List QEntry × List Ev) line =>
      let o := processLine acc.1 acc.2.1 line
      (o.buffer, o.queue, acc.2.2 ++ o.events))
    ([], s.queue, [])
  ⟨{ s with isIdle := false, buffer := f.1 ++ p.2, queue := f.2.1 }, f.2.2⟩

/-- `line.startsWith('OK') || line.startsWith('ACK')` — the status-line test
of the handler (src/index.js:79-82). -/
def isStatusLine (line : Str) : Bool :=
  (chars "OK").isPrefixOf line || (chars "ACK").isPrefixOf line

/-- `line.startsWith('OK MPD')` — the banner test (src/index.js:83). -/
def isBannerLine (line : Str) : Bool :=
  (chars "OK MPD").isPrefixOf line

/-- The continuations settled by one line's dispatch, in order. -/
def settledOf (o : LineOut) : List QEntry :=
  o.events.filterMap fun e =>
    match e with
    | .settledOk q _ => some q
    | .settledErr q _ => some q
    | _ => none

/-- `true` when the line outcome emitted the ready banner. -/
def emittedReady (o : LineOut) : Bool :=
  o.events.any fun e =>
    match e with
    | .ready _ => true
    | _ => false

/-- The body text made of `key: value` lines, each terminated by `\n` —
the inbound wire format whose parsing C4 describes. -/
def bodyOf (ps : List (Str × Str)) : Str :=
  (ps.map fun p => p.1 ++ chars ": " ++ p.2 ++ ['\n']).flatten

/-- The values carried by the occurrences of key `k` among the pairs, in
line order. -/
def occsOf (k : Str) (ps : List (Str × Str)) : List Str :=
  (ps.filter fun p => decide (p.1 = k)).map (·.2)

/-- The field value the claim prescribes for a key with the given occurrence
values: absent, the single string, or the ordered sequence of all values. -/
def shapeOf : List Str → Option FieldVal
  | [] => none
  | [v] => some (.str v)
  | vs => some (.arr (vs.map .str))

/-- One repetition-promotion step on an own-entry lookup result: first value
is a scalar, a first repeat promotes to a two-element array, later repeats
append. -/
def fieldStep (o : Option FieldVal) (v : Str) : Option FieldVal :=
  some (match o with
        | none => .str v
        | some (.str s) => .arr [.str s, .str v]
        | some (.arr l) => .arr (l ++ [.str v]))

/-- Folding `fieldStep` over a list of occurrence values. -/
def combine : Option FieldVal → List Str → Option FieldVal
  | o, [] => o
  | o, v :: vs => combine (fieldStep o v) vs

/-- The command-list text as claim C8 words it: the begin marker, then the
commands of the list *each terminated by a newline*, then the end marker.
Stated from the spec, to be compared with `commandListText`. -/
def specCommandListText (commands : List Str) (listOk : Bool) : Str :=
  (if listOk then chars "command_list_ok_begin\n" else chars "command_list_begin\n")
    ++ (commands.map fun c => c ++ ['\n']).flatten
    ++ chars "command_list_end\n"

/-! ## Helper lemmas -/

/-- A banner-prefixed line is in particular `OK`-prefixed. -/
theorem chars_OK_prefix_of_banner {line : Str} (h : isBannerLine line = true) :
    (chars "OK").isPrefixOf line = true := by
  rw [isBannerLine, List.isPrefixOf_iff_prefix] at h
  rw [List.isPrefixOf_iff_prefix]
  exact List.IsPrefix.trans (by decide) h

/-! ## Claims -/

/-- **C1** (counterexample).  The claim states that once a command has been
sent (modelled by a non-empty pending queue), an inbound `OK MPD`-prefixed
line is never classified as the connection-ready banner.  The source
(src/index.js:83) classifies by string prefix alone, with no notion of
session position: with one request pending, the line `OK MPD 0.19.0\n` is
still emitted as the `ready` banner. -/
theorem c1_counterexample :
    ¬ (∀ (buffer : Str) (q : List QEntry) (line : Str),
        q ≠ [] → isBannerLine line = true →
        emittedReady (processLine buffer q line) = false) := by
  intro h
  exact absurd (h [] [QEntry.pair 0] (chars "OK MPD 0.19.0\n") (by decide) (by decide))
    (by decide)

/-- **C1** (amended).  A line with the banner prefix `OK MPD` is *always*
classified as the one-time banner — at any point of the session, before or
after commands have been sent: the buffer is flushed into the `ready` event,
the pending queue is untouched, and the line is never dispatched through the
queue nor parsed as a response frame. -/
theorem c1_banner_always (buffer : Str) (q : List QEntry) (line : Str)
    (h : isBannerLine line = true) :
    processLine buffer q line = ⟨[], q, [Ev.ready (buffer ++ line)]⟩ := by
  have hOK := chars_OK_prefix_of_banner h
  rw [isBannerLine] at h
  simp [processLine, hOK, h]

/-- Witness for `c1_banner_always` at a concrete state and line. -/
theorem c1_banner_always_witness :
    processLine (chars "volume: 50\n") [QEntry.pair 3] (chars "OK MPD 0.19.0\n")
      = ⟨[], [QEntry.pair 3], [Ev.ready (chars "volume: 50\nOK MPD 0.19.0\n")]⟩ :=
  (c1_banner_always (chars "volume: 50\n") [QEntry.pair 3] (chars "OK MPD 0.19.0\n")
    (by decide)).trans (by decide)

/-- **C2** (counterexample).  The claim states that a command issued while
idle performs exactly two transport writes (`noidle\n`, then the command).
The source (src/index.js:183-188) instead prepends `'noidle\n'` to the text
and performs a *single* `socket.write` of the concatenation: for the command
`status` issued while idle and connected, the write trace is the one-element
list `["noidle\nstatus\n"]`, not `["noidle\n", "status\n"]`.  The two queue
pushes do happen, in order. -/
theorem c2_counterexample :
    (MPClient.command ⟨true, true, [], []⟩ (chars "status") 0).writes
        ≠ [chars "noidle\n", chars "status\n"] ∧
      (MPClient.command ⟨true, true, [], []⟩ (chars "status") 0).writes
        = [chars "noidle\nstatus\n"] ∧
      (MPClient.command ⟨true, true, [], []⟩ (chars "status") 0).pushes
        = [QEntry.noop, QEntry.pair 0] := by
  decide

/-- **C2** (amended).  For every non-cancel command text issued while the
connection is idle, the engine performs exactly *one* transport write whose
content is the cancel-idle command immediately followed by the (newline-
terminated) requested command, and pushes exactly two continuations onto the
pending queue in order: the no-op pair for the discarded cancel-idle
response, then the command's real pair.  No other write or push occurs. -/
theorem c2_idle_cancel (s : MPClient) (text : Str) (id : Nat)
    (hconn : s.connected = true) (hidle : s.isIdle = true)
    (hnc : (chars "noidle\n").isPrefixOf (withNl text) = false) :
    MPClient.command s text id =
      ⟨{ s with queue := s.queue ++ [QEntry.noop, QEntry.pair id] },
       [chars "noidle\n" ++ withNl text], [QEntry.noop, QEntry.pair id],
       CmdRes.pending id⟩ := by
  simp [MPClient.command, hconn, hidle, hnc]

/-- Witness for `c2_idle_cancel` at a concrete state and command. -/
theorem c2_idle_cancel_witness :
    MPClient.command ⟨true, true, [QEntry.pair 1], []⟩ (chars "status") 2 =
      ⟨⟨true, true, [QEntry.pair 1, QEntry.noop, QEntry.pair 2], []⟩,
       [chars "noidle\nstatus\n"], [QEntry.noop, QEntry.pair 2],
       CmdRes.pending 2⟩ :=
  (c2_idle_cancel ⟨true, true, [QEntry.pair 1], []⟩ (chars "status") 2
    (by decide) (by decide) (by decide)).trans (by decide)

/-- **C6** (confirmed).  `idle()` on a connected client: in the active state
it writes exactly `idle\n`, resolves on write completion (the result is
`resolved` without any response frame having been consumed) and pushes no
continuation onto the pending queue; in the idle state it is a complete
no-op that resolves immediately and writes nothing. -/
theorem c6_idle (s : MPClient) (hconn : s.connected = true) :
    (s.isIdle = false →
      MPClient.idle s =
        ⟨{ s with isIdle := true }, [chars "idle\n"], [], IdleRes.resolved⟩) ∧
    (s.isIdle = true → MPClient.idle s = ⟨s, [], [], IdleRes.resolved⟩) := by
  constructor <;> intro h <;> simp [MPClient.idle, hconn, h]

/-- Witness for `c6_idle`: both branches at concrete states. -/
theorem c6_idle_witness :
    MPClient.idle ⟨true, false, [QEntry.pair 0], []⟩
        = ⟨⟨true, true, [QEntry.pair 0], []⟩, [chars "idle\n"], [], IdleRes.resolved⟩ ∧
      MPClient.idle ⟨true, true, [], []⟩
        = ⟨⟨true, true, [], []⟩, [], [], IdleRes.resolved⟩ := by
  refine ⟨((c6_idle ⟨true, false, [QEntry.pair 0], []⟩ (by decide)).1 (by decide)).trans ?_,
    ((c6_idle ⟨true, true, [], []⟩ (by decide)).2 (by decide)).trans ?_⟩ <;> decide

/-- **C7** (confirmed).  `command(text)` fails immediately with the
not-connected rejection and writes nothing when disconnected; when connected
and not idle it performs exactly one write — `text` itself when it already
ends in a newline, `text ++ "\n"` otherwise — pushes the command's
continuation pair, and returns a pending promise to be settled by the
matched response frame. -/
theorem c7_command (s : MPClient) (text : Str) (id : Nat) :
    (s.connected = false →
      MPClient.command s text id = ⟨s, [], [], CmdRes.notConnected⟩) ∧
    (s.connected = true → s.isIdle = false →
      MPClient.command s text id =
        ⟨{ s with queue := s.queue ++ [QEntry.pair id] },
         [if endsWithNl text then text else text ++ ['\n']],
         [QEntry.pair id], CmdRes.pending id⟩) := by
  refine ⟨fun h => ?_, fun h hi => ?_⟩
  · simp [MPClient.command, h]
  · simp [MPClient.command, withNl, h, hi]

/-- Witness for `c7_command`: the not-connected branch and the plain
connected branch (text without a trailing newline) at concrete inputs. -/
theorem c7_command_witness :
    MPClient.command ⟨false, false, [], []⟩ (chars "play") 0
        = ⟨⟨false, false, [], []⟩, [], [], CmdRes.notConnected⟩ ∧
      MPClient.command ⟨true, false, [], []⟩ (chars "play") 1
        = ⟨⟨true, false, [QEntry.pair 1], []⟩, [chars "play\n"],
           [QEntry.pair 1], CmdRes.pending 1⟩ := by
  refine ⟨((c7_command ⟨false, false, [], []⟩ (chars "play") 0).1 (by decide)).trans ?_,
    ((c7_command ⟨true, false, [], []⟩ (chars "play") 1).2 (by decide) (by decide)).trans ?_⟩
    <;> decide

/-- The separator as a character list. -/
theorem chars_sep : chars ": " = [':', ' '] := rfl

/-- A line with no occurrence of the separator `": "` has `sepIdx = none`
(`indexOf(': ') === -1` in the source). -/
theorem sepIdx_eq_none_of_no_sep {l : Str} (h : ¬ (chars ": ") <:+: l) :
    sepIdx l = none := by
  induction l with
  | nil => rfl
  | cons c rest ih =>
    have hrest : ¬ (chars ": ") <:+: rest := fun hi => h (List.infix_cons hi)
    have hcond : ¬ (c = ':' ∧ rest.head? = some ' ') := by
      rintro ⟨rfl, hh⟩
      cases rest with
      | nil => simp at hh
      | cons d t =>
        simp at hh
        subst hh
        exact h ⟨[], t, by simp [chars_sep]⟩
    simp [sepIdx, hcond, ih hrest]

/-- If any line of the list is non-empty and has no separator, the parse
loop discards everything: the `data = {}; break` of src/index.js:238-239. -/
theorem parseLines_eq_nil_of_malformed {l : Str} (lines : List Str) :
    ∀ m : FieldMap, l ∈ lines → l ≠ [] → sepIdx l = none →
      parseLines m lines = [] := by
  induction lines with
  | nil => intro m hmem _ _; exact absurd hmem (List.not_mem_nil l)
  | cons hd tl ih =>
    intro m hmem hne hnone
    rcases List.mem_cons.mp hmem with rfl | htl
    · simp [parseLines, hne, hnone]
    · by_cases hhd : hd = []
      · simp only [parseLines, if_pos hhd]
        exact ih m htl hne hnone
      · simp only [parseLines, if_neg hhd]
        cases hsep : sepIdx hd with
        | none => simp
        | some i =>
          simp only []
          exact ih _ htl hne hnone

/-- **C5** (confirmed).  When any non-empty body line lacks the separator
`": "`, `_parseResponse` yields an empty field map (all previously parsed
fields discarded) and never errors (it is a total function), while `full`
still equals the verbatim concatenation of the body and the status line,
blank and malformed lines included. -/
theorem c5_malformed_body (contents status l : Str) (hmem : l ∈ splitNl contents)
    (hne : l ≠ []) (hsep : ¬ (chars ": ") <:+: l) :
    (_parseResponse contents status).data = [] ∧
    (_parseResponse contents status).full = contents ++ status := by
  refine ⟨?_, rfl⟩
  have hcne : contents ≠ [] := by
    rintro rfl
    simp [splitNl] at hmem
    exact hne hmem
  simp only [_parseResponse, if_neg hcne]
  exact parseLines_eq_nil_of_malformed (splitNl contents) [] hmem hne
    (sepIdx_eq_none_of_no_sep hsep)

/-- Witness for `c5_malformed_body`: the spec's scenario, body
`foo: bar\n\nbadline\n` with status `OK\n`. -/
theorem c5_malformed_body_witness :
    (_parseResponse (chars "foo: bar\n\nbadline\n") (chars "OK\n")).data = [] ∧
    (_parseResponse (chars "foo: bar\n\nbadline\n") (chars "OK\n")).full
      = chars "foo: bar\n\nbadline\nOK\n" := by
  have h := c5_malformed_body (chars "foo: bar\n\nbadline\n") (chars "OK\n")
    (chars "badline") (by decide) (by decide) (by decide)
  exact ⟨h.1, h.2.trans (by decide)⟩

/-- The `changed` notification events never settle a continuation. -/
theorem filterMap_settled_changedEvents (r : Resp) :
    (changedEvents r).filterMap
      (fun e => match e with
        | Ev.settledOk q _ => some q
        | Ev.settledErr q _ => some q
        | _ => none) = [] := by
  unfold changedEvents
  cases hc : jsGet r.data (chars "changed") with
  | none => rfl
  | some v =>
    cases v with
    | inherited n => rfl
    | val w =>
      cases w with
      | str s => rfl
      | arr l =>
        rw [List.filterMap_cons_none rfl, List.filterMap_map]
        exact List.filterMap_eq_nil_iff.mpr fun a _ => rfl

/-- Dispatch of a status, non-banner line with an empty queue: the frame is
emitted as an unsolicited `data` event (src/index.js:104-106). -/
theorem processLine_status_nil (buffer line : Str)
    (hst : isStatusLine line = true) (hb : isBannerLine line = false) :
    processLine buffer [] line =
      ⟨[], [], Ev.dataEv (_parseResponse buffer line)
          :: changedEvents (_parseResponse buffer line)⟩ := by
  have h1 : ((chars "OK").isPrefixOf line || (chars "ACK").isPrefixOf line) = true := hst
  have h2 : (chars "OK MPD").isPrefixOf line = false := hb
  cases hOK : (chars "OK").isPrefixOf line with
  | true => simp [processLine, hOK, h2]
  | false =>
    have hACK : (chars "ACK").isPrefixOf line = true := by
      rcases Bool.or_eq_true_iff.mp h1 with h | h
      · rw [hOK] at h; exact absurd h (by simp)
      · exact h
    simp [processLine, hOK, hACK, h2]

/-- Dispatch of a status, non-banner line with a pending continuation: the
head is popped and settled — resolved on `OK`, rejected on `ACK` — with the
parsed frame (src/index.js:91-103). -/
theorem processLine_status_cons (buffer : Str) (e : QEntry) (rest : List QEntry)
    (line : Str) (hst : isStatusLine line = true) (hb : isBannerLine line = false) :
    processLine buffer (e :: rest) line =
      ⟨[], rest,
        (if (chars "OK").isPrefixOf line
          then Ev.settledOk e (_parseResponse buffer line)
          else Ev.settledErr e (_parseResponse buffer line))
          :: changedEvents (_parseResponse buffer line)⟩ := by
  have h1 : ((chars "OK").isPrefixOf line || (chars "ACK").isPrefixOf line) = true := hst
  have h2 : (chars "OK MPD").isPrefixOf line = false := hb
  cases hOK : (chars "OK").isPrefixOf line with
  | true => simp [processLine, hOK, h2]
  | false =>
    have hACK : (chars "ACK").isPrefixOf line = true := by
      rcases Bool.or_eq_true_iff.mp h1 with h | h
      · rw [hOK] at h; exact absurd h (by simp)
      · exact h
    simp [processLine, hOK, hACK, h2]

/-- Dispatching one status line settles exactly the head continuation. -/
theorem settledOf_status_cons (buffer : Str) (e : QEntry) (rest : List QEntry)
    (line : Str) (hst : isStatusLine line = true) (hb : isBannerLine line = false) :
    settledOf (processLine buffer (e :: rest) line) = [e] := by
  rw [processLine_status_cons buffer e rest line hst hb]
  cases hOK : (chars "OK").isPrefixOf line <;>
    simp [settledOf, hOK, filterMap_settled_changedEvents]

/-- **C3** (confirmed).  For every completed frame dispatched by the inbound
pipeline: with a non-empty queue the head — and only the head — is removed
and settled (resolved with the frame on an `OK`-class status, rejected with
the frame on an `ACK`-class status); with an empty queue the frame is
published as an unsolicited `data` event.  Consequently, with continuations
enqueued in the order `e1, e2`, the first frame settles `e1` and the second
frame settles `e2`: a later command's response is never matched to an
earlier command's continuation. -/
theorem c3_dispatch (buffer : Str) (q : List QEntry) (line : Str)
    (hst : isStatusLine line = true) (hb : isBannerLine line = false) :
    (q = [] →
      processLine buffer q line =
        ⟨[], [], Ev.dataEv (_parseResponse buffer line)
            :: changedEvents (_parseResponse buffer line)⟩) ∧
    (∀ e rest, q = e :: rest →
      processLine buffer q line =
        ⟨[], rest,
          (if (chars "OK").isPrefixOf line
            then Ev.settledOk e (_parseResponse buffer line)
            else Ev.settledErr e (_parseResponse buffer line))
            :: changedEvents (_parseResponse buffer line)⟩ ∧
      settledOf (processLine buffer q line) = [e]) ∧
    (∀ e1 e2 rest2 buffer2 line2, isStatusLine line2 = true →
      isBannerLine line2 = false → q = e1 :: e2 :: rest2 →
      settledOf (processLine buffer q line) = [e1] ∧
      settledOf (processLine buffer2 (processLine buffer q line).queue line2)
        = [e2]) := by
  refine ⟨fun hq => ?_, fun e rest hq => ?_,
    fun e1 e2 rest2 buffer2 line2 hst2 hb2 hq => ?_⟩
  · subst hq; exact processLine_status_nil buffer line hst hb
  · subst hq
    exact ⟨processLine_status_cons buffer e rest line hst hb,
      settledOf_status_cons buffer e rest line hst hb⟩
  · subst hq
    refine ⟨settledOf_status_cons _ _ _ _ hst hb, ?_⟩
    have hqueue : (processLine buffer (e1 :: e2 :: rest2) line).queue
        = e2 :: rest2 := by
      rw [processLine_status_cons _ _ _ _ hst hb]
    rw [hqueue]
    exact settledOf_status_cons buffer2 e2 rest2 line2 hst2 hb2

/-- Witness for `c3_dispatch`: an `OK\n` frame settles the head of a
two-entry queue, and an `ACK\n` frame settles the remaining entry. -/
theorem c3_dispatch_witness :
    processLine [] [QEntry.pair 1, QEntry.pair 2] (chars "OK\n")
        = ⟨[], [QEntry.pair 2],
           [Ev.settledOk (QEntry.pair 1) ⟨[], chars "OK", chars "OK\n"⟩]⟩ ∧
      settledOf (processLine [] [QEntry.pair 2] (chars "ACK\n"))
        = [QEntry.pair 2] := by
  have h := c3_dispatch [] [QEntry.pair 1, QEntry.pair 2] (chars "OK\n")
    (by decide) (by decide)
  have h2 := c3_dispatch [] [QEntry.pair 2] (chars "ACK\n") (by decide) (by decide)
  exact ⟨((h.2.1 (QEntry.pair 1) [QEntry.pair 2] rfl).1).trans (by decide),
    (h2.2.1 (QEntry.pair 2) [] rfl).2⟩

/-- Reading `data[k]` after one assignment `data[kk] = v` step, for an
assigned key `kk` that is not an inherited `Object.prototype` member (so its
freshness is decided by the own entries alone): the assigned key reads back
through `fieldStep`, every other key is unchanged. -/
theorem lookupField_addField (m : FieldMap) (kk v k : Str)
    (hp : kk ∉ protoProps) :
    lookupField (addField m kk v) k =
      if kk = k then fieldStep (lookupField m k) v else lookupField m k := by
  induction m with
  | nil =>
    rw [show addField [] kk v
        = if kk ∈ protoProps
          then [(kk, FieldVal.arr [.protoMember kk, .str v])]
          else [(kk, FieldVal.str v)] from rfl, if_neg hp]
    by_cases h : kk = k <;> simp [lookupField, fieldStep, h]
  | cons p rest ih =>
    obtain ⟨a, w⟩ := p
    by_cases ha : a = kk
    · subst ha
      by_cases hk : a = k
      · subst hk
        cases w <;> simp [addField, lookupField, fieldStep]
      · simp [addField, lookupField, hk]
    · by_cases hk : a = k
      · subst hk
        have hka : ¬ kk = a := fun hh => ha hh.symm
        simp [addField, lookupField, ha, hka]
      · simp [addField, lookupField, ha, hk, ih]

/-- For a key with no embedded separator, the first `": "` of the line
`k ++ ": " ++ v` sits exactly at the end of the key. -/
theorem sepIdx_key {k : Str} (v : Str) (h : ¬ (chars ": ") <:+: k) :
    sepIdx (k ++ chars ": " ++ v) = some k.length := by
  induction k with
  | nil => simp [chars_sep, sepIdx]
  | cons c k' ih =>
    have hk' : ¬ (chars ": ") <:+: k' := fun hi => h (List.infix_cons hi)
    have hcond : ¬ (c = ':' ∧ (k' ++ chars ": " ++ v).head? = some ' ') := by
      rintro ⟨rfl, hh⟩
      cases k' with
      | nil => rw [chars_sep] at hh; simp at hh
      | cons d t =>
        simp at hh
        subst hh
        exact h ⟨[], t, by simp [chars_sep]⟩
    calc sepIdx ((c :: k') ++ chars ": " ++ v)
        = (sepIdx (k' ++ chars ": " ++ v)).map (· + 1) := by
          simp only [List.cons_append, sepIdx, List.append_eq]
          rw [if_neg hcond]
      _ = some (c :: k').length := by rw [ih hk']; simp

/-- Occurrence values of a key, unfolded over the head pair. -/
theorem occsOf_cons (k a v : Str) (rest : List (Str × Str)) :
    occsOf k ((a, v) :: rest) =
      if a = k then v :: occsOf k rest else occsOf k rest := by
  by_cases h : a = k <;> simp [occsOf, List.filter_cons, h]

/-- Folding occurrence values onto an array value appends them in order. -/
theorem combine_arr (l : List FieldElem) (vs : List Str) :
    combine (some (FieldVal.arr l)) vs
      = some (FieldVal.arr (l ++ vs.map .str)) := by
  induction vs generalizing l with
  | nil => simp [combine]
  | cons v vs ih => simp [combine, fieldStep, ih]

/-- Folding the occurrence values of a fresh key produces exactly the shape
the claim prescribes: absent, scalar, or ordered array. -/
theorem combine_none_shapeOf (vs : List Str) : combine none vs = shapeOf vs := by
  match vs with
  | [] => rfl
  | [v] => rfl
  | v1 :: v2 :: vs =>
    rw [show combine none (v1 :: v2 :: vs)
        = combine (some (FieldVal.arr [.str v1, .str v2])) vs from rfl,
      combine_arr]
    rfl

/-- The parse loop over well-formed `key: value` lines, related to the
occurrence values of each key through `combine`. -/
theorem lookupField_parseLines_pairs (ps : List (Str × Str)) (k : Str) :
    ∀ m : FieldMap,
      (∀ p ∈ ps, ¬ (chars ": ") <:+: p.1 ∧ p.1 ∉ protoProps) →
      lookupField (parseLines m (ps.map fun p => p.1 ++ chars ": " ++ p.2)) k
        = combine (lookupField m k) (occsOf k ps) := by
  induction ps with
  | nil => intro m _; rfl
  | cons p rest ih =>
    obtain ⟨a, v⟩ := p
    intro m hps
    have ha := (hps (a, v) (List.mem_cons_self _ _)).1
    have hap := (hps (a, v) (List.mem_cons_self _ _)).2
    have hrest : ∀ q ∈ rest, ¬ (chars ": ") <:+: q.1 ∧ q.1 ∉ protoProps :=
      fun q hq => hps q (List.mem_cons_of_mem _ hq)
    have hline : a ++ chars ": " ++ v ≠ [] := by simp [chars_sep]
    have hsep := sepIdx_key v ha
    have htake : (a ++ chars ": " ++ v).take a.length = a := by
      rw [List.append_assoc]
      exact List.take_left a _
    have hdrop : (a ++ chars ": " ++ v).drop (a.length + 2) = v := by
      have hlen : (a ++ chars ": ").length = a.length + 2 := by simp [chars_sep]
      rw [← hlen, List.drop_left]
    rw [List.map_cons]
    simp only [parseLines, if_neg hline, hsep, htake, hdrop]
    rw [ih (addField m a v) hrest, lookupField_addField m a v k hap, occsOf_cons]
    by_cases hak : a = k
    · simp only [if_pos hak]
      rfl
    · simp only [if_neg hak]

/-- JavaScript split: a newline-free piece followed by `\n` splits off as one
piece. -/
theorem splitNl_append_nl {l : Str} (t : Str) (h : '\n' ∉ l) :
    splitNl (l ++ '\n' :: t) = l :: splitNl t := by
  induction l with
  | nil => simp [splitNl]
  | cons c l' ih =>
    have hc : ¬ c = '\n' := fun hh => h (hh ▸ List.mem_cons_self c l')
    have hl' : '\n' ∉ l' := fun hh => h (List.mem_cons_of_mem _ hh)
    rw [List.cons_append, splitNl]
    simp only [if_neg hc, ih hl']

/-- Splitting the body built from newline-free keys and values yields the
`key: value` lines plus the trailing empty piece. -/
theorem splitNl_bodyOf (ps : List (Str × Str))
    (h : ∀ p ∈ ps, '\n' ∉ p.1 ∧ '\n' ∉ p.2) :
    splitNl (bodyOf ps) = (ps.map fun p => p.1 ++ chars ": " ++ p.2) ++ [[]] := by
  induction ps with
  | nil => rfl
  | cons p rest ih =>
    obtain ⟨a, v⟩ := p
    obtain ⟨ha, hv⟩ := h (a, v) (List.mem_cons_self _ _)
    have hline : '\n' ∉ a ++ chars ": " ++ v := by
      intro hm
      rcases List.mem_append.mp hm with hm | hm
      · rcases List.mem_append.mp hm with hm | hm
        · exact ha hm
        · rw [chars_sep] at hm; simp at hm
      · exact hv hm
    have hbody : bodyOf ((a, v) :: rest)
        = (a ++ chars ": " ++ v) ++ '\n' :: bodyOf rest := by
      simp [bodyOf, List.append_assoc]
    rw [hbody, splitNl_append_nl _ hline,
      ih fun q hq => h q (List.mem_cons_of_mem _ hq)]
    simp

/-- A trailing empty line is skipped by the parse loop (in every branch,
including an early break). -/
theorem parseLines_append_empty (lines : List Str) :
    ∀ m : FieldMap, parseLines m (lines ++ [[]]) = parseLines m lines := by
  induction lines with
  | nil => intro m; rfl
  | cons l ls ih =>
    intro m
    by_cases hl : l = []
    · simp only [List.cons_append, parseLines, if_pos hl]
      exact ih m
    · simp only [List.cons_append, parseLines, if_neg hl]
      cases hsep : sepIdx l with
      | none => rfl
      | some i => exact ih _

/-- **C4** (counterexample).  The claim quantifies over all `key: value`
bodies, but the freshness test `data[key] == null` (src/index.js:245)
consults the prototype chain of the object literal `{}`: for the key
`toString` the read yields the inherited `Object.prototype.toString`, which
is not nullish, so the very first occurrence takes the promotion branch
(src/index.js:252) and stores the two-element array
`[Object.prototype.toString, 'bar']` instead of the scalar `'bar'` —
refuting "unique keys yield exactly those pairs" at the unique key
`toString`. -/
theorem c4_counterexample :
    lookupField (_parseResponse (chars "toString: bar\n") (chars "OK\n")).data
        (chars "toString")
      ≠ some (FieldVal.str (chars "bar")) ∧
    lookupField (_parseResponse (chars "toString: bar\n") (chars "OK\n")).data
        (chars "toString")
      = some (FieldVal.arr [FieldElem.protoMember (chars "toString"),
          FieldElem.str (chars "bar")]) := by
  decide

/-- **C4** (amended: keys restricted to names that are not inherited
`Object.prototype` members, i.e. keys for which `({})[key] == null` holds).
Parsing a body of such `key: value` lines (keys free of the separator, keys
and values newline-free): a key occurring once reads back as its single
string value, so unique keys give exactly the written pairs; a key occurring
twice reads back as the two-element ordered array of its values; each
further occurrence appends its value, preserving line order.
`shapeOf (occsOf k ps)` states exactly that correspondence for every
key `k`. -/
theorem c4_field_promotion (ps : List (Str × Str)) (k status : Str)
    (hps : ∀ p ∈ ps, ¬ (chars ": ") <:+: p.1 ∧ p.1 ∉ protoProps ∧
      '\n' ∉ p.1 ∧ '\n' ∉ p.2) :
    lookupField (_parseResponse (bodyOf ps) status).data k
      = shapeOf (occsOf k ps) := by
  cases ps with
  | nil => rfl
  | cons p rest =>
    have hbne : bodyOf (p :: rest) ≠ [] := by
      obtain ⟨a, v⟩ := p
      simp [bodyOf]
    show lookupField (if bodyOf (p :: rest) = [] then []
        else parseLines [] (splitNl (bodyOf (p :: rest)))) k = _
    rw [if_neg hbne,
      splitNl_bodyOf _ (fun q hq => (hps q hq).2.2),
      parseLines_append_empty,
      lookupField_parseLines_pairs _ _ []
        (fun q hq => ⟨(hps q hq).1, (hps q hq).2.1⟩)]
    exact combine_none_shapeOf _

/-- Witness for `c4_field_promotion`: body
`foo: bar\nfoo: baz\nx: 1\n` — the repeated key `foo` reads back as the
ordered pair of its values, the unique key `x` as a scalar, and an absent
key as nothing. -/
theorem c4_field_promotion_witness :
    lookupField
        (_parseResponse (chars "foo: bar\nfoo: baz\nx: 1\n") (chars "OK\n")).data
        (chars "foo")
      = some (FieldVal.arr [FieldElem.str (chars "bar"),
          FieldElem.str (chars "baz")]) ∧
    lookupField
        (_parseResponse (chars "foo: bar\nfoo: baz\nx: 1\n") (chars "OK\n")).data
        (chars "x")
      = some (FieldVal.str (chars "1")) ∧
    lookupField
        (_parseResponse (chars "foo: bar\nfoo: baz\nx: 1\n") (chars "OK\n")).data
        (chars "zz")
      = none := by
  have hb : bodyOf [(chars "foo", chars "bar"), (chars "foo", chars "baz"),
      (chars "x", chars "1")] = chars "foo: bar\nfoo: baz\nx: 1\n" := by decide
  have h := fun k => c4_field_promotion
    [(chars "foo", chars "bar"), (chars "foo", chars "baz"),
      (chars "x", chars "1")] k (chars "OK\n") (by decide)
  rw [← hb]
  exact ⟨(h (chars "foo")).trans (by decide),
    (h (chars "x")).trans (by decide), (h (chars "zz")).trans (by decide)⟩

/-- No byte is lost by line extraction: the extracted lines re-concatenate
with the residue to the exact input. -/
theorem extractLines_flatten (s : Str) :
    (extractLines s).1.flatten ++ (extractLines s).2 = s := by
  induction s with
  | nil => rfl
  | cons c rest ih =>
    by_cases hc : c = '\n'
    · subst hc
      simp [extractLines, ih]
    · cases hp : (extractLines rest).1 with
      | nil =>
        rw [hp] at ih
        simp only [List.flatten_nil, List.nil_append] at ih
        simp [extractLines, hc, hp, ih]
      | cons l ls =>
        rw [hp] at ih
        simp only [List.flatten_cons] at ih
        simp [extractLines, hc, hp]
        simpa [List.append_assoc] using ih

theorem nl_not_mem_residual (s : Str) : '\n' ∉ (extractLines s).2 := by
  induction s with
  | nil => simp [extractLines]
  | cons c rest ih =>
    by_cases hc : c = '\n'
    · subst hc
      simpa [extractLines] using ih
    · cases hp : (extractLines rest).1 with
      | nil =>
        simp [extractLines, hc, hp]
        exact ⟨fun h => hc h.symm, ih⟩
      | cons l ls =>
        simpa [extractLines, hc, hp] using ih

theorem extractLines_of_not_mem {s : Str} (h : '\n' ∉ s) :
    extractLines s = ([], s) := by
  induction s with
  | nil => rfl
  | cons c rest ih =>
    have hc : ¬ c = '\n' := fun hh => h (hh ▸ List.mem_cons_self c rest)
    have hrest : '\n' ∉ rest := fun hh => h (List.mem_cons_of_mem _ hh)
    simp [extractLines, hc, ih hrest]

theorem extractLines_line_shape (s : Str) :
    ∀ l ∈ (extractLines s).1, ∃ l', l = l' ++ ['\n'] ∧ '\n' ∉ l' := by
  induction s with
  | nil => simp [extractLines]
  | cons c rest ih =>
    by_cases hc : c = '\n'
    · subst hc
      intro l hl
      rw [show extractLines ('\n' :: rest)
          = (['\n'] :: (extractLines rest).1, (extractLines rest).2) from by
        simp [extractLines]] at hl
      rcases List.mem_cons.mp hl with rfl | hl
      · exact ⟨[], rfl, by simp⟩
      · exact ih l hl
    · cases hp : (extractLines rest).1 with
      | nil =>
        intro l hl
        simp [extractLines, hc, hp] at hl
      | cons t ts =>
        intro l hl
        rw [show extractLines (c :: rest)
            = ((c :: t) :: ts, (extractLines rest).2) from by
          simp [extractLines, hc, hp]] at hl
        rcases List.mem_cons.mp hl with rfl | hl
        · obtain ⟨t', ht', hmem⟩ := ih t (hp ▸ List.mem_cons_self t ts)
          exact ⟨c :: t', by rw [ht']; rfl,
            by
              intro hm
              rcases List.mem_cons.mp hm with hm | hm
              · exact hc hm.symm
              · exact hmem hm⟩
        · exact ih l (hp ▸ List.mem_cons_of_mem t hl)

theorem extractLines_append (s t : Str) :
    extractLines (s ++ t)
      = ((extractLines s).1 ++ (extractLines ((extractLines s).2 ++ t)).1,
         (extractLines ((extractLines s).2 ++ t)).2) := by
  induction s with
  | nil => simp [extractLines]
  | cons c s' ih =>
    by_cases hc : c = '\n'
    · subst hc
      rw [show ('\n' :: s') ++ t = '\n' :: (s' ++ t) from rfl]
      rw [show extractLines ('\n' :: (s' ++ t))
          = (['\n'] :: (extractLines (s' ++ t)).1, (extractLines (s' ++ t)).2) from by
        simp [extractLines]]
      rw [show extractLines ('\n' :: s')
          = (['\n'] :: (extractLines s').1, (extractLines s').2) from by
        simp [extractLines]]
      rw [ih]
      simp
    · cases hp : (extractLines s').1 with
      | nil =>
        have hres : (extractLines s').2 = s' := by
          have := extractLines_flatten s'
          rw [hp] at this
          simpa using this
        rw [show extractLines (c :: s') = ([], c :: (extractLines s').2) from by
          simp [extractLines, hc, hp]]
        simp [hres]
      | cons l ls =>
        rw [show (c :: s') ++ t = c :: (s' ++ t) from rfl]
        rw [show extractLines (c :: s') = ((c :: l) :: ls, (extractLines s').2) from by
          simp [extractLines, hc, hp]]
        have hp' : (extractLines (s' ++ t)).1
            = l :: (ls ++ (extractLines ((extractLines s').2 ++ t)).1) := by
          rw [ih, hp]; rfl
        rw [show extractLines (c :: (s' ++ t))
            = ((c :: (l :: (ls ++ (extractLines ((extractLines s').2 ++ t)).1)).head (by simp))
                :: (l :: (ls ++ (extractLines ((extractLines s').2 ++ t)).1)).tail,
               (extractLines (s' ++ t)).2) from by
          simp [extractLines, hc, hp']]
        rw [ih, hp]
        simp

theorem feedAll_eq_extractLines (cs : List Str) :
    ∀ b : Str, '\n' ∉ b → feedAll b cs = extractLines (b ++ cs.flatten) := by
  induction cs with
  | nil =>
    intro b hb
    rw [List.flatten_nil, List.append_nil, extractLines_of_not_mem hb]
    rfl
  | cons c cs' ih =>
    intro b hb
    rw [show feedAll b (c :: cs')
        = ((feed b c).1 ++ (feedAll (feed b c).2 cs').1, (feedAll (feed b c).2 cs').2)
        from rfl]
    rw [ih (feed b c).2 (nl_not_mem_residual (b ++ c))]
    rw [List.flatten_cons, ← List.append_assoc]
    rw [extractLines_append (b ++ c) cs'.flatten]
    rfl

/-- **C9** (confirmed).  For every sequence of inbound chunks, the frame
reader yields exactly the complete newline-terminated lines (each including
its trailing newline and containing no interior newline), keeps the trailing
partial line as the carry-over residue, drops/duplicates/reorders no byte
(lines plus residue re-concatenate to the input), and is invariant under
chunking: feeding the chunks one by one equals feeding their concatenation
as a single chunk. -/
theorem c9_frame_reader (cs : List Str) :
    (feedAll [] cs).1.flatten ++ (feedAll [] cs).2 = cs.flatten ∧
    feedAll [] cs = feed [] cs.flatten ∧
    (∀ l ∈ (feedAll [] cs).1, ∃ l', l = l' ++ ['\n'] ∧ '\n' ∉ l') ∧
    '\n' ∉ (feedAll [] cs).2 := by
  have h0 : feedAll [] cs = extractLines cs.flatten := by
    simpa using feedAll_eq_extractLines cs [] (by simp)
  refine ⟨?_, ?_, ?_, ?_⟩
  · rw [h0]; exact extractLines_flatten _
  · rw [h0]; rfl
  · rw [h0]; exact extractLines_line_shape _
  · rw [h0]; exact nl_not_mem_residual _

/-- Witness for `c9_frame_reader`: a three-chunk split of
`status\nOK\nab` feeds to the same outcome as the whole text at once. -/
theorem c9_frame_reader_witness :
    feedAll [] [chars "sta", chars "tus\nOK", chars "\nab"]
      = feed [] (chars "status\nOK\nab") := by
  have hf : List.flatten [chars "sta", chars "tus\nOK", chars "\nab"]
      = chars "status\nOK\nab" := by decide
  have h := (c9_frame_reader [chars "sta", chars "tus\nOK", chars "\nab"]).2.1
  rw [hf] at h
  exact h

/-- The command-list text always ends in a newline (its end marker does), so
`command` forwards it unchanged. -/
theorem endsWithNl_commandListText (cs : List Str) (lo : Bool) :
    endsWithNl (commandListText cs lo) = true := by
  have he : chars "command_list_end\n" = chars "command_list_end" ++ ['\n'] := by
    decide
  simp only [endsWithNl, commandListText, decide_eq_true_eq]
  rw [he, ← List.append_assoc]
  exact List.getLast?_concat _

/-- For a non-empty command list, `join('\n') + '\n'` equals terminating
every command with a newline. -/
theorem joinNl_append_nl (cs : List Str) (hne : cs ≠ []) :
    joinNl cs ++ ['\n'] = (cs.map fun c => c ++ ['\n']).flatten := by
  induction cs with
  | nil => exact absurd rfl hne
  | cons c cs ih =>
    cases cs with
    | nil => simp [joinNl]
    | cons d cs' =>
      have hj : joinNl (c :: d :: cs') = c ++ '\n' :: joinNl (d :: cs') := rfl
      rw [hj, List.map_cons, List.flatten_cons, ← ih (List.cons_ne_nil d cs')]
      simp [List.append_assoc]

/-- For a non-empty command list the source's text coincides with the text
the claim describes. -/
theorem commandListText_eq_spec (cs : List Str) (lo : Bool) (hne : cs ≠ []) :
    commandListText cs lo = specCommandListText cs lo := by
  unfold commandListText specCommandListText
  rw [joinNl_append_nl cs hne]

/-- **C8** (counterexample).  The claim quantifies over *every* list of
command texts, but on the empty list `Array.from([]).join('\n') + '\n'`
(src/index.js:211) contributes one stray empty line: the built text carries
`\n` between the two markers, while the claim's text (begin marker, the —
zero — commands each newline-terminated, end marker) does not. -/
theorem c8_counterexample :
    commandListText [] true ≠ specCommandListText [] true ∧
    commandListText [] true = chars "command_list_ok_begin\n\ncommand_list_end\n" ∧
    specCommandListText [] true = chars "command_list_ok_begin\ncommand_list_end\n" := by
  decide

/-- **C8** (amended: restricted to non-empty command lists).  For every
non-empty `cs`, `commandList(cs, listOk)` builds exactly the claimed text —
the chosen begin marker (`command_list_ok_begin\n` when the OK variant is
selected, which is the `null`/omitted default, else `command_list_begin\n`),
the commands of `cs` each newline-terminated, then `command_list_end\n` —
and issues it as one single `command`, which (connected, non-idle) performs
exactly one write of that text.  Intermediate `list_OK` lines of the reply
are accumulated as body content rather than terminating the frame: for the
reply `list_OK\nlist_OK\nOK\n` the pending continuation is resolved exactly
once, with empty fields and `full` equal to the whole three-line text. -/
theorem c8_command_list (s : MPClient) (cs : List Str) (lo : Option Bool)
    (id : Nat) (hne : cs ≠ []) :
    commandListText cs (lo.getD true) = specCommandListText cs (lo.getD true) ∧
    MPClient.commandList s cs lo id
      = MPClient.command s (commandListText cs (lo.getD true)) id ∧
    (s.connected = true → s.isIdle = false →
      (MPClient.commandList s cs lo id).writes
        = [commandListText cs (lo.getD true)]) ∧
    MPClient.processData ⟨true, false, [QEntry.pair 7], []⟩
        (chars "list_OK\nlist_OK\nOK\n")
      = ⟨⟨true, false, [], []⟩,
         [Ev.settledOk (QEntry.pair 7)
           ⟨[], chars "OK", chars "list_OK\nlist_OK\nOK\n"⟩]⟩ := by
  refine ⟨commandListText_eq_spec cs _ hne, rfl, fun hc hi => ?_, by decide⟩
  simp [MPClient.commandList, MPClient.command, hc, hi, withNl,
    endsWithNl_commandListText]

/-- Witness for `c8_command_list`: the spec's scenario list
`['play', 'play']` with the default OK-variant marker. -/
theorem c8_command_list_witness :
    (MPClient.commandList ⟨true, false, [], []⟩ [chars "play", chars "play"]
        none 4).writes
      = [chars "command_list_ok_begin\nplay\nplay\ncommand_list_end\n"] := by
  have h := c8_command_list ⟨true, false, [], []⟩ [chars "play", chars "play"]
    none 4 (by decide)
  exact (h.2.2.1 rfl rfl).trans (by decide)

/-- `disconnect()` never touches the pending queue. -/
theorem disconnect_queue (s : MPClient) :
    (MPClient.disconnect s).queue = s.queue := by
  unfold MPClient.disconnect
  split <;> rfl

/-- `connect()` never touches the pending queue. -/
theorem connect_queue (s : MPClient) :
    (MPClient.connect s).queue = s.queue := by
  unfold MPClient.connect MPClient.disconnect
  split <;> rfl

/-- **C10** (confirmed).  Neither `disconnect()` nor a subsequent
`connect()` modifies the pending-request queue: continuations left
unanswered at disconnect survive, are not rejected or cleared, and after
the reconnect they still sit at the head — a command issued after the
reconnect is appended behind them, and the first response frame of the new
connection settles the old head (in FIFO order) before anything enqueued
later. -/
theorem c10_queue_preserved (s : MPClient) (text : Str) (id : Nat)
    (buffer line : Str) (hst : isStatusLine line = true)
    (hb : isBannerLine line = false) :
    (MPClient.disconnect s).queue = s.queue ∧
    (MPClient.connect (MPClient.disconnect s)).queue = s.queue ∧
    (MPClient.command (MPClient.connect (MPClient.disconnect s)) text id).state.queue
        = s.queue ++ [QEntry.pair id] ∧
    (∀ e rest, s.queue = e :: rest →
      settledOf (processLine buffer
          (MPClient.connect (MPClient.disconnect s)).queue line) = [e] ∧
      (processLine buffer
          (MPClient.connect (MPClient.disconnect s)).queue line).queue = rest) := by
  have hdq := disconnect_queue s
  have hcq : (MPClient.connect (MPClient.disconnect s)).queue = s.queue :=
    (connect_queue _).trans hdq
  have hconn : (MPClient.connect (MPClient.disconnect s)).connected = true := rfl
  have hidle : (MPClient.connect (MPClient.disconnect s)).isIdle = false := rfl
  refine ⟨hdq, hcq, ?_, ?_⟩
  · simp [MPClient.command, hconn, hidle, hcq]
  · intro e rest hq
    rw [hcq, hq]
    exact ⟨settledOf_status_cons buffer e rest line hst hb,
      by rw [processLine_status_cons buffer e rest line hst hb]⟩

/-- Witness for `c10_queue_preserved`: one continuation pending across a
disconnect/reconnect, a new command queued behind it, and the first `OK\n`
frame of the new connection settling the old head. -/
theorem c10_queue_preserved_witness :
    (MPClient.command
        (MPClient.connect (MPClient.disconnect ⟨true, true, [QEntry.pair 5], []⟩))
        (chars "status") 6).state.queue
      = [QEntry.pair 5, QEntry.pair 6] ∧
    settledOf (processLine []
        (MPClient.connect (MPClient.disconnect ⟨true, true, [QEntry.pair 5], []⟩)).queue
        (chars "OK\n")) = [QEntry.pair 5] := by
  have h := c10_queue_preserved ⟨true, true, [QEntry.pair 5], []⟩ (chars "status") 6
    [] (chars "OK\n") (by decide) (by decide)
  exact ⟨h.2.2.1.trans (by decide), (h.2.2.2 (QEntry.pair 5) [] rfl).1⟩
